import Mathlib

set_option maxHeartbeats 1000000
set_option maxRecDepth 8000

/-- Modelled from the spec: the engine (the pymes module with `World`, `Species`,
`Lattice` and the reaction rules) is not part of the available sources, which hold
only the example notebooks and the packaging metadata.  Every definition below is
therefore a model of the spec's words.  A species is an identity given by its
name, unique within a world. -/
structure Species where
  name : String
deriving DecidableEq

/-- Modelled from the spec: the closed tagged variant of elementary reaction rules
(birth, death, predation, predation-with-birth), each carrying a rate constant.
Rates are modelled as rationals, standing in for the floating point rates of the
missing engine; no claim below depends on a rate's numeric value. -/
inductive Reaction where
  | birth (species : Species) (rate : ℚ)
  | death (species : Species) (rate : ℚ)
  | predation (predator : Species) (prey : Species) (rate : ℚ)
  | predationBirth (predator : Species) (prey : Species) (rate : ℚ)
deriving DecidableEq

/-- Modelled from the spec: the fixed registry a world owns - lattice dimensions,
the species, the hop rates, the per-species reaction rule lists and the optional
carrying capacity.  The registry is fixed after construction, which the embedding
realises by keeping it in a structure separate from the mutable simulation state. -/
structure Params where
  width : Nat
  height : Nat
  speciesList : List Species
  hops : List (Species × ℚ)
  reactions : List (Species × List Reaction)
  capacity : Option Nat

/-- The number of lattice sites; sites are flattened indices below it. -/
def nsites (P : Params) : Nat := P.width * P.height

/-- The names of the registered species. -/
def Params.names (P : Params) : List String := P.speciesList.map Species.name

/-- Occupancy storage: per flattened site index and species name, an occupant
count.  Counts are integers so that non-negativity is a proved invariant of the
model rather than an artifact of the embedding's types. -/
def Counts : Type := Nat → String → Int

/-- Modelled from the spec: the mutable simulation state - the occupancy counts
and the world-owned seeded random generator state, threaded explicitly. -/
structure SimState where
  counts : Counts
  rng : Nat

/-- Modelled from the spec: a world owns the fixed registry and the mutable
simulation state. -/
structure World where
  params : Params
  state : SimState

/-- Modelled from the spec: the deterministic pseudo-random generator owned by the
world, a linear congruential step. -/
def lcg (s : Nat) : Nat := (s * 1103515245 + 12345) % 2147483648

attribute [irreducible] lcg

/-- Modelled from the spec: the missing engine decides each elementary attempt by
a Bernoulli trial with success probability 1 - exp(-rate), which has no exact
rational form; the model maps the rate and the integer random draw to a Boolean
through a fixed deterministic monotone rule.  Every theorem below quantifies over
the whole state, so none depends on the exact shape of this rule. -/
def firesWith (rate : ℚ) (d : Nat) : Bool :=
  decide (0 < rate ∧ ((d % 4096 : Nat) : ℚ) * (1 + rate) < 4096 * rate)

/-- Point update of the occupancy storage: add `d` occupants of species name `n`
at site `i`. -/
def addCount (c : Counts) (i : Nat) (n : String) (d : Int) : Counts :=
  fun j m => if j = i ∧ m = n then c j m + d else c j m

/-- The total occupant count at a site, summed over the registered species. -/
def totalCountF (P : Params) (c : Counts) (i : Nat) : Int :=
  Finset.sum P.names.toFinset (fun n => c i n)

/-- The total occupant count of one species name, summed over all sites. -/
def speciesTotalF (P : Params) (c : Counts) (n : String) : Int :=
  Finset.sum (Finset.range (nsites P)) (fun i => c i n)

/-- Modelled from the spec: the capacity check guarding every additive mutation -
adding one occupant at site `i` keeps the site total within the carrying
capacity; an absent capacity means unbounded. -/
def canAddF (P : Params) (c : Counts) (i : Nat) : Bool :=
  match P.capacity with
  | none => true
  | some K => decide (totalCountF P c i + 1 ≤ (K : Int))

/-- Modelled from the spec: the four periodic (von Neumann) lattice neighbors of a
site; the random draw `d` selects one of them uniformly. -/
def neighborSite (P : Params) (i : Nat) (d : Nat) : Nat :=
  if d % 4 = 0 then (i / P.width) * P.width + (i % P.width + 1) % P.width
  else if d % 4 = 1 then (i / P.width) * P.width + (i % P.width + P.width - 1) % P.width
  else if d % 4 = 2 then ((i / P.width + 1) % P.height) * P.width + i % P.width
  else ((i / P.width + P.height - 1) % P.height) * P.width + i % P.width

/-- The hop rate of a species (0 when the species has no hop entry). -/
def hopRate (P : Params) (s : Species) : ℚ :=
  match P.hops.find? (fun p => p.1.name == s.name) with
  | some p => p.2
  | none => 0

/-- The reaction rules in which a species is the acting species. -/
def reactionsOf (P : Params) (s : Species) : List Reaction :=
  match P.reactions.find? (fun p => p.1.name == s.name) with
  | some p => p.2
  | none => []

/-- Modelled from the spec: the candidate prey site of a bimolecular reaction -
the acting occupant's own site in same-site mode, a uniformly chosen neighbor in
single-occupancy mode (carrying capacity 1). -/
def candSite (P : Params) (pos : Nat) (g : Nat) : Nat :=
  if P.capacity = some 1 then neighborSite P pos (lcg g) else pos

/-- The generator state after the candidate-site selection (one draw is consumed
only in single-occupancy mode). -/
def candRng (P : Params) (g : Nat) : Nat :=
  if P.capacity = some 1 then lcg g else g

/-- Modelled from the spec: the site where the new predator of a
predation-with-birth event is added - the prey's site in single-occupancy mode
(the predator effectively moves into the vacated site), the acting occupant's
site in same-site mode. -/
def birthDest (P : Params) (pos : Nat) (g : Nat) : Nat :=
  if P.capacity = some 1 then candSite P pos g else pos

/-- Modelled from the spec: one hop attempt of one occupant-unit.  With the trial
probability the unit picks one of the four neighbors; a destination that would
violate the capacity invariant makes the attempt a no-op, otherwise one occupant
unit moves from source to destination.  Returns the new state and the unit's
(possibly new) position. -/
def tryHop (P : Params) (st : SimState) (pos : Nat) (s : Species) : SimState × Nat :=
  if firesWith (hopRate P s) (lcg st.rng) then
    if 0 < st.counts pos s.name ∧
        canAddF P st.counts (neighborSite P pos (lcg (lcg st.rng))) then
      (⟨addCount (addCount st.counts pos s.name (-1))
          (neighborSite P pos (lcg (lcg st.rng))) s.name 1,
        lcg (lcg st.rng)⟩,
       neighborSite P pos (lcg (lcg st.rng)))
    else (⟨st.counts, lcg (lcg st.rng)⟩, pos)
  else (⟨st.counts, lcg st.rng⟩, pos)

/-- Modelled from the spec: one elementary reaction attempt of one occupant-unit
of species `s` at site `pos`.  Birth adds at the same site subject to capacity;
death removes only a currently positive count and consumes the acting unit;
predation removes one prey at the candidate site; predation-with-birth removes
one prey and adds one predator atomically, rejecting the whole event when the
birth destination would violate capacity.  Returns the state and whether the
acting unit is still present. -/
def applyReaction (P : Params) (st : SimState) (pos : Nat) (s : Species) :
    Reaction → SimState × Bool
  | Reaction.birth b rate =>
    if firesWith rate (lcg st.rng) ∧ canAddF P st.counts pos then
      (⟨addCount st.counts pos b.name 1, lcg st.rng⟩, true)
    else (⟨st.counts, lcg st.rng⟩, true)
  | Reaction.death b rate =>
    if firesWith rate (lcg st.rng) ∧ 0 < st.counts pos b.name then
      (⟨addCount st.counts pos b.name (-1), lcg st.rng⟩, decide (¬ b.name = s.name))
    else (⟨st.counts, lcg st.rng⟩, true)
  | Reaction.predation _ prey rate =>
    if 0 < st.counts (candSite P pos st.rng) prey.name then
      if firesWith rate (lcg (candRng P st.rng)) then
        (⟨addCount st.counts (candSite P pos st.rng) prey.name (-1),
          lcg (candRng P st.rng)⟩, true)
      else (⟨st.counts, lcg (candRng P st.rng)⟩, true)
    else (⟨st.counts, candRng P st.rng⟩, true)
  | Reaction.predationBirth pred prey rate =>
    if 0 < st.counts (candSite P pos st.rng) prey.name then
      if firesWith rate (lcg (candRng P st.rng)) then
        if canAddF P (addCount st.counts (candSite P pos st.rng) prey.name (-1))
            (birthDest P pos st.rng) then
          (⟨addCount (addCount st.counts (candSite P pos st.rng) prey.name (-1))
              (birthDest P pos st.rng) pred.name 1,
            lcg (candRng P st.rng)⟩, true)
        else (⟨st.counts, lcg (candRng P st.rng)⟩, true)
      else (⟨st.counts, lcg (candRng P st.rng)⟩, true)
    else (⟨st.counts, candRng P st.rng⟩, true)

/-- Apply the unit's reaction rules in registry order, stopping once the acting
unit has been consumed. -/
def applyReactions (P : Params) (pos : Nat) (s : Species) :
    List Reaction → SimState → SimState
  | [], st => st
  | r :: rs, st =>
    if (applyReaction P st pos s r).2 then
      applyReactions P pos s rs (applyReaction P st pos s r).1
    else (applyReaction P st pos s r).1

/-- Modelled from the spec: process one occupant-unit of the step's start-of-step
enumeration: skip it when its site is not a lattice site or the unit has already
been consumed earlier in the step, otherwise evaluate its hop attempt and then
every reaction rule of its species. -/
def processUnit (P : Params) (st : SimState) (u : Nat × Species) : SimState :=
  if u.1 < nsites P ∧ 0 < st.counts u.1 u.2.name then
    applyReactions P (tryHop P st u.1 u.2).2 u.2 (reactionsOf P u.2)
      (tryHop P st u.1 u.2).1
  else st

/-- The fixed enumeration of occupant-units present at the start of a step: one
entry per unit of count, per site and registered species. -/
def unitsOf (P : Params) (st : SimState) : List (Nat × Species) :=
  (List.range (nsites P)).foldr
    (fun i acc =>
      P.speciesList.foldr
        (fun s acc2 => List.replicate (st.counts i s.name).toNat (i, s) ++ acc2)
        acc)
    []

/-- Remove the element at an index from a list, returning it and the rest. -/
def pickOut {α : Type} : List α → Nat → Option (α × List α)
  | [], _ => none
  | a :: as, 0 => some (a, as)
  | a :: as, k + 1 =>
    match pickOut as k with
    | some p => some (p.1, a :: p.2)
    | none => none

/-- Modelled from the spec: the uniformly shuffled traversal order of the
occupant-units, a Fisher-Yates shuffle driven by the world's generator. -/
def shuffleGo {α : Type} : Nat → Nat → List α → List α → List α
  | _, _, [], acc => acc.reverse
  | 0, _, rest, acc => acc.reverse ++ rest
  | fuel + 1, g, rest, acc =>
    match pickOut rest (lcg g % rest.length) with
    | some p => shuffleGo fuel (lcg g) p.2 (p.1 :: acc)
    | none => acc.reverse ++ rest

/-- The shuffled occupant-unit order for one step. -/
def shuffled {α : Type} (l : List α) (g : Nat) : List α := shuffleGo l.length g l []

/-- The generator state once the shuffle has consumed its draws. -/
def rngAfterShuffle {α : Type} (l : List α) (g : Nat) : Nat := Nat.iterate lcg l.length g

/-- Modelled from the spec: one Monte Carlo step over the simulation state -
enumerate the occupant-units present at step start, shuffle them, and process
each in turn against the mid-step mutated state. -/
def stepState (P : Params) (st : SimState) : SimState :=
  List.foldl (processUnit P)
    ⟨st.counts, rngAfterShuffle (unitsOf P st) st.rng⟩
    (shuffled (unitsOf P st) st.rng)

/-- Modelled from the spec: `step()` advances the world by exactly one Monte
Carlo step, mutating the simulation state in place and leaving the registry
untouched. -/
def World.step (w : World) : World := ⟨w.params, stepState w.params w.state⟩

/-- `k` consecutive Monte Carlo steps. -/
def World.stepN : Nat → World → World
  | 0, w => w
  | k + 1, w => World.stepN k (World.step w)

/-- Modelled from the spec: `asarrays()` returns, keyed by species name, a
read-only per-species 2D array of occupant counts, row-major by `(y, x)`; the
snapshot is a copy - in the model, a pure value computed from the state. -/
def World.asarrays (w : World) : String → Option (Nat → Nat → Int) :=
  fun n =>
    if n ∈ w.params.names then
      some (fun y x => w.state.counts (y * w.params.width + x) n)
    else none

/-- The snapshot operation with its full effect on the world made explicit: it
returns the snapshot together with the (unchanged) world. -/
def World.asarraysOp (w : World) : (String → Option (Nat → Nat → Int)) × World :=
  (w.asarrays, w)

/-- The errors of explicit caller-driven mutation. -/
inductive SimError where
  | CapacityExceeded
  | UnknownSpecies
  | InvalidSite
deriving DecidableEq

/-- Modelled from the spec: `create_occupant(species, site)` increments one
occupant of the species at the site, subject to the same capacity invariant as
any other additive event; at a site already at capacity it fails with
`CapacityExceeded` and leaves occupancy unchanged.  A site index outside the
lattice or a species without a counter in this world is likewise a caller error. -/
def World.create_occupant (w : World) (s : Species) (i : Nat) : Except SimError World :=
  if i < nsites w.params then
    if s.name ∈ w.params.names then
      if canAddF w.params w.state.counts i then
        Except.ok ⟨w.params, ⟨addCount w.state.counts i s.name 1, w.state.rng⟩⟩
      else Except.error SimError.CapacityExceeded
    else Except.error SimError.UnknownSpecies
  else Except.error SimError.InvalidSite

/-- The total occupant count at a site of a world, summed over its species. -/
def World.total (w : World) (i : Nat) : Int := totalCountF w.params w.state.counts i

/-- Modelled from the spec: the construction configuration - size, per-species
initial densities, hop rates, reaction rules and the optional carrying capacity. -/
structure Config where
  width : Nat
  height : Nat
  initial_densities : List (Species × ℚ)
  hops : List (Species × ℚ)
  reactions : List (Species × List Reaction)
  capacity : Option Nat

/-- The species a reaction rule references. -/
def Reaction.participants : Reaction → List Species
  | Reaction.birth b _ => [b]
  | Reaction.death b _ => [b]
  | Reaction.predation a b _ => [a, b]
  | Reaction.predationBirth a b _ => [a, b]

/-- The species registry a configuration induces: every species referenced by a
density, a hop rate or a reaction rule. -/
def Config.speciesOf (cfg : Config) : List Species :=
  (cfg.initial_densities.map Prod.fst ++ cfg.hops.map Prod.fst ++
    cfg.reactions.map Prod.fst ++
    cfg.reactions.foldr
      (fun p acc => p.2.foldr (fun r acc2 => r.participants ++ acc2) acc) []).dedup

/-- The fixed registry a configuration constructs. -/
def Config.toParams (cfg : Config) : Params :=
  ⟨cfg.width, cfg.height, cfg.speciesOf, cfg.hops, cfg.reactions, cfg.capacity⟩

/-- Modelled from the spec: the per-site occupant count drawn for a target
density during density-based seeding.  The exact law (Poisson with mean equal to
the density) has no exact rational form; the model uses a deterministic function
of the draw whose support grows with the density.  No claim depends on the law. -/
def densityDraw (rho : ℚ) (d : Nat) : Nat :=
  if rho ≤ 0 then 0 else d % (2 * Nat.ceil rho + 2)

/-- Place up to `k` occupants one by one, each subject to the capacity check. -/
def placeMany (P : Params) (i : Nat) (n : String) : Nat → SimState → SimState
  | 0, st => st
  | k + 1, st =>
    if canAddF P st.counts i then placeMany P i n k ⟨addCount st.counts i n 1, st.rng⟩
    else st

/-- Modelled from the spec: density-based seeding at construction - for each site
and each species with a target density, draw an occupant count and place it
respecting the capacity invariant across the species sharing the site. -/
def seedDensities (P : Params) (dens : List (Species × ℚ)) (st : SimState) : SimState :=
  List.foldl
    (fun st2 i =>
      List.foldl
        (fun st3 p =>
          placeMany P i p.1.name (densityDraw p.2 (lcg st3.rng)) ⟨st3.counts, lcg st3.rng⟩)
        st2 dens)
    st (List.range (nsites P))

/-- Modelled from the spec: world construction from a configuration and a random
seed - an empty lattice stochastically seeded by the initial densities. -/
def construct (cfg : Config) (seed : Nat) : World :=
  ⟨cfg.toParams, seedDensities cfg.toParams cfg.initial_densities ⟨fun _ _ => 0, seed⟩⟩

/-- The reachable worlds: those produced by construction followed by any sequence
of successful `create_occupant` calls and `step()` calls. -/
inductive Reachable : World → Prop
  | constructed (cfg : Config) (seed : Nat) : Reachable (construct cfg seed)
  | created {w w' : World} {s : Species} {i : Nat} :
      Reachable w → w.create_occupant s i = Except.ok w' → Reachable w'
  | stepped {w : World} : Reachable w → Reachable (World.step w)

/-- A registry whose configuration contains only hop rules: every per-species
reaction list is empty. -/
def OnlyHops (P : Params) : Prop := ∀ p ∈ P.reactions, p.2 = []

/-- Non-negativity of every occupancy count. -/
def NonnegF (c : Counts) : Prop := ∀ i n, 0 ≤ c i n

/-- The capacity invariant: every site total is within the carrying capacity. -/
def CapOKF (P : Params) (c : Counts) : Prop :=
  ∀ K, P.capacity = some K → ∀ i, totalCountF P c i ≤ (K : Int)

/-- Counts vanish outside the lattice. -/
def ZeroOutF (P : Params) (c : Counts) : Prop :=
  ∀ i n, nsites P ≤ i → c i n = 0

/-- The occupancy invariants maintained by every operation. -/
def InvF (P : Params) (c : Counts) : Prop := NonnegF c ∧ CapOKF P c ∧ ZeroOutF P c

theorem addCount_apply (c : Counts) (i : Nat) (n : String) (d : Int) (j : Nat) (m : String) :
    addCount c i n d j m = if j = i ∧ m = n then c j m + d else c j m := rfl

theorem totalCountF_addCount (P : Params) (c : Counts) (i : Nat) (n : String) (d : Int)
    (j : Nat) :
    totalCountF P (addCount c i n d) j
      = totalCountF P c j + (if j = i ∧ n ∈ P.names then d else 0) := by
  unfold totalCountF addCount
  by_cases hj : j = i
  · subst hj
    have hsum :
        (Finset.sum P.names.toFinset fun m => if j = j ∧ m = n then c j m + d else c j m)
          = Finset.sum P.names.toFinset (fun m => c j m)
            + Finset.sum P.names.toFinset (fun m => if m = n then d else 0) := by
      rw [← Finset.sum_add_distrib]
      apply Finset.sum_congr rfl
      intro m _
      by_cases hm : m = n
      · rw [if_pos ⟨rfl, hm⟩, if_pos hm]
      · rw [if_neg (fun hc => hm hc.2), if_neg hm, add_zero]
    rw [hsum, Finset.sum_ite_eq']
    by_cases hn : n ∈ P.names
    · rw [if_pos (List.mem_toFinset.mpr hn), if_pos ⟨rfl, hn⟩]
    · rw [if_neg (fun hc => hn (List.mem_toFinset.mp hc)), if_neg (fun hc => hn hc.2)]
  · have hsum :
        (Finset.sum P.names.toFinset fun m => if j = i ∧ m = n then c j m + d else c j m)
          = Finset.sum P.names.toFinset (fun m => c j m) := by
      apply Finset.sum_congr rfl
      intro m _
      rw [if_neg (fun hc => hj hc.1)]
    rw [hsum, if_neg (fun hc => hj hc.1), add_zero]

theorem speciesTotalF_addCount (P : Params) (c : Counts) (i : Nat) (n : String) (d : Int)
    (m : String) :
    speciesTotalF P (addCount c i n d) m
      = speciesTotalF P c m + (if i < nsites P ∧ m = n then d else 0) := by
  unfold speciesTotalF addCount
  have hsum :
      (Finset.sum (Finset.range (nsites P)) fun j => if j = i ∧ m = n then c j m + d else c j m)
        = Finset.sum (Finset.range (nsites P)) (fun j => c j m)
          + Finset.sum (Finset.range (nsites P)) (fun j => if j = i ∧ m = n then d else 0) := by
    rw [← Finset.sum_add_distrib]
    apply Finset.sum_congr rfl
    intro j _
    by_cases hj : j = i ∧ m = n
    · rw [if_pos hj, if_pos hj]
    · rw [if_neg hj, if_neg hj, add_zero]
  rw [hsum]
  by_cases hm : m = n
  · have h1 :
        (Finset.sum (Finset.range (nsites P)) fun j => if j = i ∧ m = n then d else 0)
          = Finset.sum (Finset.range (nsites P)) (fun j => if j = i then d else 0) := by
      apply Finset.sum_congr rfl
      intro j _
      by_cases hj : j = i
      · rw [if_pos ⟨hj, hm⟩, if_pos hj]
      · rw [if_neg (fun hc => hj hc.1), if_neg hj]
    rw [h1, Finset.sum_ite_eq']
    by_cases hi : i < nsites P
    · rw [if_pos (Finset.mem_range.mpr hi), if_pos ⟨hi, hm⟩]
    · rw [if_neg (fun hc => hi (Finset.mem_range.mp hc)), if_neg (fun hc => hi hc.1)]
  · have h1 :
        (Finset.sum (Finset.range (nsites P)) fun j => if j = i ∧ m = n then d else 0)
          = 0 := by
      apply Finset.sum_eq_zero
      intro j _
      rw [if_neg (fun hc => hm hc.2)]
    rw [h1, if_neg (fun hc => hm hc.2), add_zero]

theorem canAddF_spec (P : Params) (c : Counts) (i : Nat) (h : canAddF P c i = true) :
    ∀ K, P.capacity = some K → totalCountF P c i + 1 ≤ (K : Int) := by
  intro K hK
  unfold canAddF at h
  rw [hK] at h
  exact of_decide_eq_true h

theorem canAddF_mono (P : Params) (c c' : Counts) (i : Nat)
    (hle : totalCountF P c' i ≤ totalCountF P c i) (h : canAddF P c i = true) :
    canAddF P c' i = true := by
  unfold canAddF at *
  cases hcap : P.capacity with
  | none => rfl
  | some K =>
    rw [hcap] at h
    have h2 := of_decide_eq_true h
    exact decide_eq_true (by omega)

theorem invF_add (P : Params) (c : Counts) (i : Nat) (n : String)
    (h : InvF P c) (hi : i < nsites P) (hc : canAddF P c i = true) :
    InvF P (addCount c i n 1) := by
  obtain ⟨hn, hcap, hz⟩ := h
  refine ⟨?_, ?_, ?_⟩
  · intro j m
    rw [addCount_apply]
    split
    · have := hn j m; omega
    · exact hn j m
  · intro K hK j
    rw [totalCountF_addCount]
    by_cases hji : j = i ∧ n ∈ P.names
    · rw [if_pos hji]
      have h1 := canAddF_spec P c i hc K hK
      rw [hji.1]
      omega
    · rw [if_neg hji, add_zero]
      exact hcap K hK j
  · intro j m hj
    rw [addCount_apply]
    split
    · next hcond =>
      exfalso
      have h1 := hcond.1
      omega
    · exact hz j m hj

theorem invF_remove (P : Params) (c : Counts) (i : Nat) (n : String)
    (h : InvF P c) (hpos : 0 < c i n) : InvF P (addCount c i n (-1)) := by
  obtain ⟨hn, hcap, hz⟩ := h
  have hi : i < nsites P := by
    by_contra hni
    have := hz i n (by omega)
    omega
  refine ⟨?_, ?_, ?_⟩
  · intro j m
    rw [addCount_apply]
    split
    · next hcond =>
      rw [hcond.1, hcond.2]
      omega
    · exact hn j m
  · intro K hK j
    rw [totalCountF_addCount]
    have h1 := hcap K hK j
    split <;> omega
  · intro j m hj
    rw [addCount_apply]
    split
    · next hcond =>
      exfalso
      have h1 := hcond.1
      omega
    · exact hz j m hj

theorem totalCountF_remove_le (P : Params) (c : Counts) (i : Nat) (n : String) (j : Nat) :
    totalCountF P (addCount c i n (-1)) j ≤ totalCountF P c j := by
  rw [totalCountF_addCount]
  split <;> omega

theorem invF_move (P : Params) (c : Counts) (src dst : Nat) (n : String)
    (h : InvF P c) (hsrc : 0 < c src n) (hdst : dst < nsites P)
    (hc : canAddF P c dst = true) :
    InvF P (addCount (addCount c src n (-1)) dst n 1) := by
  have h1 := invF_remove P c src n h hsrc
  have hc' := canAddF_mono P c (addCount c src n (-1)) dst
    (totalCountF_remove_le P c src n dst) hc
  exact invF_add P (addCount c src n (-1)) dst n h1 hdst hc'

theorem width_pos_of_lt (P : Params) (i : Nat) (hi : i < nsites P) : 0 < P.width := by
  rcases Nat.eq_zero_or_pos P.width with h0 | h0
  · exfalso
    unfold nsites at hi
    rw [h0, Nat.zero_mul] at hi
    exact Nat.not_lt_zero i hi
  · exact h0

theorem height_pos_of_lt (P : Params) (i : Nat) (hi : i < nsites P) : 0 < P.height := by
  rcases Nat.eq_zero_or_pos P.height with h0 | h0
  · exfalso
    unfold nsites at hi
    rw [h0, Nat.mul_zero] at hi
    exact Nat.not_lt_zero i hi
  · exact h0

theorem coord_lt (P : Params) (a b : Nat) (ha : a < P.height) (hb : b < P.width) :
    a * P.width + b < nsites P := by
  unfold nsites
  have h1 : a * P.width + b < (a + 1) * P.width := by
    rw [Nat.add_mul, Nat.one_mul]
    omega
  have h2 : (a + 1) * P.width ≤ P.height * P.width := Nat.mul_le_mul_right _ (by omega)
  calc a * P.width + b < (a + 1) * P.width := h1
  _ ≤ P.height * P.width := h2
  _ = P.width * P.height := Nat.mul_comm _ _

theorem neighborSite_lt (P : Params) (i d : Nat) (hi : i < nsites P) :
    neighborSite P i d < nsites P := by
  have hw := width_pos_of_lt P i hi
  have hh := height_pos_of_lt P i hi
  have hx : i % P.width < P.width := Nat.mod_lt _ hw
  have hy : i / P.width < P.height := by
    rw [Nat.div_lt_iff_lt_mul hw, Nat.mul_comm]
    unfold nsites at hi
    exact hi
  unfold neighborSite
  split
  · exact coord_lt P _ _ hy (Nat.mod_lt _ hw)
  · split
    · exact coord_lt P _ _ hy (Nat.mod_lt _ hw)
    · split
      · exact coord_lt P _ _ (Nat.mod_lt _ hh) hx
      · exact coord_lt P _ _ (Nat.mod_lt _ hh) hx

theorem candSite_lt (P : Params) (pos g : Nat) (hpos : pos < nsites P) :
    candSite P pos g < nsites P := by
  unfold candSite
  split
  · exact neighborSite_lt P pos _ hpos
  · exact hpos

theorem applyReaction_inv (P : Params) (st : SimState) (pos : Nat) (s : Species)
    (r : Reaction) (h : InvF P st.counts) (hpos : pos < nsites P) :
    InvF P ((applyReaction P st pos s r).1).counts := by
  cases r with
  | birth b rate =>
    simp only [applyReaction]
    split
    · next hc => exact invF_add P st.counts pos b.name h hpos hc.2
    · exact h
  | death b rate =>
    simp only [applyReaction]
    split
    · next hc => exact invF_remove P st.counts pos b.name h hc.2
    · exact h
  | predation a prey rate =>
    simp only [applyReaction]
    split
    · next hc =>
      split
      · exact invF_remove P st.counts _ prey.name h hc
      · exact h
    · exact h
  | predationBirth pred prey rate =>
    simp only [applyReaction]
    split
    · next hc =>
      split
      · split
        · next hcc =>
          refine invF_add P _ _ pred.name (invF_remove P st.counts _ prey.name h hc) ?_ hcc
          unfold birthDest
          split
          · exact candSite_lt P pos st.rng hpos
          · exact hpos
        · exact h
      · exact h
    · exact h

theorem tryHop_inv (P : Params) (st : SimState) (pos : Nat) (s : Species)
    (h : InvF P st.counts) (hpos : pos < nsites P) :
    InvF P ((tryHop P st pos s).1).counts := by
  unfold tryHop
  split
  · split
    · next hg =>
      show InvF P (addCount (addCount st.counts pos s.name (-1))
        (neighborSite P pos (lcg (lcg st.rng))) s.name 1)
      exact invF_move P st.counts pos (neighborSite P pos (lcg (lcg st.rng))) s.name h
        hg.1 (neighborSite_lt P pos (lcg (lcg st.rng)) hpos) hg.2
    · exact h
  · exact h

theorem tryHop_pos_lt (P : Params) (st : SimState) (pos : Nat) (s : Species)
    (hpos : pos < nsites P) : (tryHop P st pos s).2 < nsites P := by
  unfold tryHop
  split
  · split
    · show neighborSite P pos (lcg (lcg st.rng)) < nsites P
      exact neighborSite_lt P pos (lcg (lcg st.rng)) hpos
    · exact hpos
  · exact hpos

theorem applyReactions_inv (P : Params) (pos : Nat) (s : Species) (rs : List Reaction) :
    ∀ st : SimState, InvF P st.counts → pos < nsites P →
      InvF P (applyReactions P pos s rs st).counts := by
  induction rs with
  | nil => intro st h _; exact h
  | cons r rs ih =>
    intro st h hpos
    simp only [applyReactions]
    split
    · exact ih _ (applyReaction_inv P st pos s r h hpos) hpos
    · exact applyReaction_inv P st pos s r h hpos

theorem processUnit_inv (P : Params) (st : SimState) (u : Nat × Species)
    (h : InvF P st.counts) : InvF P (processUnit P st u).counts := by
  unfold processUnit
  split
  · next hg =>
    exact applyReactions_inv P _ u.2 (reactionsOf P u.2) _
      (tryHop_inv P st u.1 u.2 h hg.1) (tryHop_pos_lt P st u.1 u.2 hg.1)
  · exact h

theorem foldl_processUnit_inv (P : Params) (l : List (Nat × Species)) :
    ∀ st : SimState, InvF P st.counts →
      InvF P (List.foldl (processUnit P) st l).counts := by
  induction l with
  | nil => intro st h; exact h
  | cons u l ih =>
    intro st h
    exact ih _ (processUnit_inv P st u h)

theorem stepState_inv (P : Params) (st : SimState) (h : InvF P st.counts) :
    InvF P (stepState P st).counts := by
  unfold stepState
  exact foldl_processUnit_inv P _ _ h

theorem placeMany_inv (P : Params) (i : Nat) (n : String) (hi : i < nsites P) :
    ∀ (k : Nat) (st : SimState), InvF P st.counts →
      InvF P (placeMany P i n k st).counts := by
  intro k
  induction k with
  | zero => intro st h; exact h
  | succ k ih =>
    intro st h
    simp only [placeMany]
    split
    · next hc => exact ih _ (invF_add P st.counts i n h hi hc)
    · exact h

theorem foldl_inv_sites (P : Params) (f : SimState → Nat → SimState)
    (hf : ∀ (st : SimState) (i : Nat), i < nsites P → InvF P st.counts → InvF P (f st i).counts)
    (l : List Nat) (hl : ∀ i ∈ l, i < nsites P) :
    ∀ st : SimState, InvF P st.counts → InvF P (List.foldl f st l).counts := by
  induction l with
  | nil => intro st h; exact h
  | cons i l ih =>
    intro st h
    exact ih (fun j hj => hl j (List.mem_cons_of_mem i hj)) _
      (hf st i (hl i (List.mem_cons_self i l)) h)

theorem seedDensities_inv (P : Params) (dens : List (Species × ℚ)) (st : SimState)
    (h : InvF P st.counts) : InvF P (seedDensities P dens st).counts := by
  unfold seedDensities
  apply foldl_inv_sites P _ ?_ _ (fun i hi => List.mem_range.mp hi) st h
  intro st2 i hi h2
  induction dens generalizing st2 with
  | nil => exact h2
  | cons p dens ih =>
    simp only [List.foldl_cons]
    exact ih _ (placeMany_inv P i p.1.name hi _ _ h2)

theorem construct_inv (cfg : Config) (seed : Nat) :
    InvF (construct cfg seed).params (construct cfg seed).state.counts := by
  apply seedDensities_inv
  refine ⟨?_, ?_, ?_⟩
  · intro i n; exact le_refl 0
  · intro K hK i
    unfold totalCountF
    rw [Finset.sum_const_zero]
    exact Int.natCast_nonneg K
  · intro i n _; rfl

theorem create_occupant_inv (w w' : World) (s : Species) (i : Nat)
    (hok : w.create_occupant s i = Except.ok w')
    (h : InvF w.params w.state.counts) : InvF w'.params w'.state.counts := by
  unfold World.create_occupant at hok
  split at hok
  · split at hok
    · split at hok
      · next hsite _ hc =>
        have hw' : w' = ⟨w.params, ⟨addCount w.state.counts i s.name 1, w.state.rng⟩⟩ :=
          (Except.ok.injEq _ _).mp hok |>.symm
        rw [hw']
        exact invF_add w.params w.state.counts i s.name h hsite hc
      · exact absurd hok (by simp)
    · exact absurd hok (by simp)
  · exact absurd hok (by simp)

theorem reachable_inv (w : World) (h : Reachable w) : InvF w.params w.state.counts := by
  induction h with
  | constructed cfg seed => exact construct_inv cfg seed
  | created hw hok ih => exact create_occupant_inv _ _ _ _ hok ih
  | stepped hw ih => exact stepState_inv _ _ ih

theorem reactionsOf_eq_nil (P : Params) (s : Species) (honly : OnlyHops P) :
    reactionsOf P s = [] := by
  unfold reactionsOf
  cases hf : P.reactions.find? (fun p => p.1.name == s.name) with
  | none => rfl
  | some p => exact honly p (List.mem_of_find?_eq_some hf)

theorem tryHop_total (P : Params) (st : SimState) (pos : Nat) (s : Species)
    (hpos : pos < nsites P) (n : String) :
    speciesTotalF P ((tryHop P st pos s).1).counts n = speciesTotalF P st.counts n := by
  unfold tryHop
  split
  · split
    · next hg =>
      show speciesTotalF P (addCount (addCount st.counts pos s.name (-1))
        (neighborSite P pos (lcg (lcg st.rng))) s.name 1) n = speciesTotalF P st.counts n
      rw [speciesTotalF_addCount, speciesTotalF_addCount]
      have hd := neighborSite_lt P pos (lcg (lcg st.rng)) hpos
      by_cases hn : n = s.name
      · rw [if_pos ⟨hpos, hn⟩, if_pos ⟨hd, hn⟩]
        omega
      · rw [if_neg (fun hc => hn hc.2), if_neg (fun hc => hn hc.2)]
        omega
    · rfl
  · rfl

theorem processUnit_total (P : Params) (st : SimState) (u : Nat × Species) (n : String)
    (honly : OnlyHops P) :
    speciesTotalF P (processUnit P st u).counts n = speciesTotalF P st.counts n := by
  unfold processUnit
  split
  · next hg =>
    rw [reactionsOf_eq_nil P u.2 honly]
    show speciesTotalF P ((tryHop P st u.1 u.2).1).counts n = speciesTotalF P st.counts n
    exact tryHop_total P st u.1 u.2 hg.1 n
  · rfl

theorem foldl_total (P : Params) (honly : OnlyHops P) (l : List (Nat × Species)) :
    ∀ (st : SimState) (n : String),
      speciesTotalF P (List.foldl (processUnit P) st l).counts n
        = speciesTotalF P st.counts n := by
  induction l with
  | nil => intro st n; rfl
  | cons u l ih =>
    intro st n
    rw [List.foldl_cons, ih, processUnit_total P st u n honly]

theorem step_total (w : World) (honly : OnlyHops w.params) (n : String) :
    speciesTotalF w.params (World.step w).state.counts n
      = speciesTotalF w.params w.state.counts n := by
  show speciesTotalF w.params (stepState w.params w.state).counts n
    = speciesTotalF w.params w.state.counts n
  unfold stepState
  rw [foldl_total w.params honly _ _ n]

theorem stepN_total (w : World) (honly : OnlyHops w.params) (k : Nat) (n : String) :
    speciesTotalF w.params (World.stepN k w).state.counts n
      = speciesTotalF w.params w.state.counts n := by
  induction k generalizing w with
  | zero => rfl
  | succ k ih =>
    show speciesTotalF w.params (World.stepN k (World.step w)).state.counts n
      = speciesTotalF w.params w.state.counts n
    calc speciesTotalF w.params (World.stepN k (World.step w)).state.counts n
        = speciesTotalF w.params (World.step w).state.counts n := ih (World.step w) honly
      _ = speciesTotalF w.params w.state.counts n := step_total w honly n

/-- Name and species used by the concrete witness worlds below. -/
def nameA : String := "A"

/-- A concrete species. -/
def spA : Species := ⟨nameA⟩

/-- A demonstration configuration: a 2 by 2 lattice with one species carrying a
density, a hop rate, a birth rule and carrying capacity 2. -/
def cfgDemo : Config :=
  ⟨2, 2, [(spA, 1)], [(spA, 1)], [(spA, [Reaction.birth spA 1])], some 2⟩

/-- A 1 by 1 single-occupancy world holding one occupant, hop rules only. -/
def worldHop : World :=
  ⟨⟨1, 1, [spA], [(spA, 10)], [], some 1⟩,
   ⟨fun i n => if i = 0 ∧ n = nameA then 1 else 0, 42⟩⟩

/-- A 1 by 1 world at carrying capacity: one occupant, capacity 1. -/
def worldFull : World :=
  ⟨⟨1, 1, [spA], [], [], some 1⟩,
   ⟨fun i n => if i = 0 ∧ n = nameA then 1 else 0, 7⟩⟩

/-- A 1 by 1 empty world with unbounded capacity. -/
def worldEmpty : World :=
  ⟨⟨1, 1, [spA], [], [], none⟩, ⟨fun _ _ => 0, 0⟩⟩

/-- Claim C1: in every reachable state of a world with finite carrying capacity K,
the total occupant count at every site summed over all species is at most K, and
when K is 1 no site holds more than one occupant of any species. -/
theorem capacity_invariant_of_reachable (w : World) (K : Nat)
    (hr : Reachable w) (hK : w.params.capacity = some K) :
    (∀ i, w.total i ≤ (K : Int)) ∧
    (K = 1 → ∀ (i : Nat) (s : Species), s ∈ w.params.speciesList →
      w.state.counts i s.name ≤ 1) := by
  have hinv := reachable_inv w hr
  constructor
  · intro i
    exact hinv.2.1 K hK i
  · intro hK1 i s hs
    have h1 : w.state.counts i s.name ≤ totalCountF w.params w.state.counts i := by
      unfold totalCountF
      refine Finset.single_le_sum (f := fun n => w.state.counts i n) ?_ ?_
      · intro n _
        exact hinv.1 i n
      · exact List.mem_toFinset.mpr (List.mem_map_of_mem Species.name hs)
    have h2 := hinv.2.1 K hK i
    rw [hK1] at h2
    unfold totalCountF at *
    omega

/-- Witness for C1 at a concrete reachable world. -/
theorem capacity_invariant_witness :
    (∀ i, (construct cfgDemo 9).total i ≤ ((2 : Nat) : Int)) ∧
    ((2 : Nat) = 1 → ∀ (i : Nat) (s : Species),
      s ∈ (construct cfgDemo 9).params.speciesList →
      (construct cfgDemo 9).state.counts i s.name ≤ 1) :=
  capacity_invariant_of_reachable (construct cfgDemo 9) 2
    (Reachable.constructed cfgDemo 9) rfl

/-- Claim C2: in every reachable state every occupant count is non-negative; the
model's removals are all guarded by a positivity check, so no operation drives a
count below zero. -/
theorem occupant_counts_nonneg (w : World) (hr : Reachable w) (i : Nat) (n : String) :
    0 ≤ w.state.counts i n := (reachable_inv w hr).1 i n

/-- Witness for C2 at a concrete reachable world. -/
theorem occupant_counts_nonneg_witness :
    0 ≤ (construct cfgDemo 9).state.counts 0 nameA :=
  occupant_counts_nonneg (construct cfgDemo 9) (Reachable.constructed cfgDemo 9) 0 nameA

/-- Claim C3: two worlds constructed identically and advanced by the same number
of steps with the same seed produce identical per-species occupancy snapshots
after every step. -/
theorem identical_runs_identical_snapshots (cfg1 cfg2 : Config) (seed1 seed2 : Nat)
    (hcfg : cfg1 = cfg2) (hseed : seed1 = seed2) (k : Nat) :
    (World.stepN k (construct cfg1 seed1)).asarrays
      = (World.stepN k (construct cfg2 seed2)).asarrays := by
  subst hcfg
  subst hseed
  rfl

/-- Witness for C3 at a concrete configuration and seed. -/
theorem identical_runs_identical_snapshots_witness :
    (World.stepN 2 (construct cfgDemo 9)).asarrays
      = (World.stepN 2 (construct cfgDemo 9)).asarrays :=
  identical_runs_identical_snapshots cfgDemo cfgDemo 9 9 rfl rfl 2

/-- Claim C4: every predation-with-birth event is atomic - its evaluation either
leaves every occupant count unchanged, or it both removes one prey at the
candidate site and adds one predator at the birth destination (the candidate site
itself in single-occupancy mode, the acting site in same-site mode); no
intermediate state such as the prey removed without the predator born is ever an
outcome, and a capacity-rejected event leaves the prey in place. -/
theorem predationBirth_atomic (P : Params) (st : SimState) (pos : Nat)
    (s pred prey : Species) (rate : ℚ) :
    (∀ i n, ((applyReaction P st pos s (Reaction.predationBirth pred prey rate)).1).counts i n
        = st.counts i n)
    ∨ (0 < st.counts (candSite P pos st.rng) prey.name ∧
       (P.capacity = some 1 → birthDest P pos st.rng = candSite P pos st.rng) ∧
       (¬ P.capacity = some 1 →
          candSite P pos st.rng = pos ∧ birthDest P pos st.rng = pos) ∧
       ∀ i n, ((applyReaction P st pos s (Reaction.predationBirth pred prey rate)).1).counts i n
          = addCount (addCount st.counts (candSite P pos st.rng) prey.name (-1))
              (birthDest P pos st.rng) pred.name 1 i n) := by
  simp only [applyReaction]
  split
  · next hc =>
    split
    · split
      · refine Or.inr ⟨hc, ?_, ?_, fun i n => rfl⟩
        · intro hcap
          unfold birthDest
          rw [if_pos hcap]
        · intro hcap
          constructor
          · unfold candSite
            rw [if_neg hcap]
          · unfold birthDest
            rw [if_neg hcap]
      · exact Or.inl (fun i n => rfl)
    · exact Or.inl (fun i n => rfl)
  · exact Or.inl (fun i n => rfl)

/-- Claim C5: a world whose configuration contains only hop rules preserves the
total occupant count of each species, summed over all sites, across any number of
steps. -/
theorem onlyHops_conserves_totals (w : World) (honly : OnlyHops w.params)
    (k : Nat) (n : String) :
    speciesTotalF w.params (World.stepN k w).state.counts n
      = speciesTotalF w.params w.state.counts n :=
  stepN_total w honly k n

/-- Witness for C5 at a concrete hop-only world. -/
theorem onlyHops_conserves_totals_witness :
    speciesTotalF worldHop.params (World.stepN 2 worldHop).state.counts nameA
      = speciesTotalF worldHop.params worldHop.state.counts nameA :=
  onlyHops_conserves_totals worldHop (fun p hp => absurd hp (List.not_mem_nil p)) 2 nameA

/-- Claim C6: calling create_occupant at a site whose total occupancy already
equals the finite carrying capacity K raises CapacityExceeded (leaving the world
unchanged, since no new world is produced). -/
theorem create_occupant_capacity_error (w : World) (s : Species) (i K : Nat)
    (hsite : i < nsites w.params) (hreg : s.name ∈ w.params.names)
    (hK : w.params.capacity = some K) (hfull : w.total i = (K : Int)) :
    w.create_occupant s i = Except.error SimError.CapacityExceeded := by
  have hnc : ¬ (canAddF w.params w.state.counts i = true) := by
    intro hc
    have h2 := canAddF_spec w.params w.state.counts i hc K hK
    unfold World.total at hfull
    omega
  unfold World.create_occupant
  rw [if_pos hsite, if_pos hreg, if_neg hnc]

/-- Witness for C6 at a concrete world at capacity. -/
theorem create_occupant_capacity_error_witness :
    worldFull.create_occupant spA 0 = Except.error SimError.CapacityExceeded :=
  create_occupant_capacity_error worldFull spA 0 1 (by decide) (by decide) rfl (by decide)

/-- Claim C7: in every world, a hop attempt whose chosen destination would
violate the capacity invariant (the capacity check fails at the selected
neighbor, which under carrying capacity 1 rejects a destination occupied by any
other species) is a no-op leaving every count and the occupant's position
unchanged, never an error; in particular, on a 1 by 1 single-occupancy hop-only
lattice whose only neighbor is the site itself, the occupant's count stays 1
after every step, forever. -/
theorem hop_rejection_noop :
    (∀ (P : Params) (st : SimState) (pos : Nat) (s : Species),
        canAddF P st.counts (neighborSite P pos (lcg (lcg st.rng))) = false →
        (∀ i n, ((tryHop P st pos s).1).counts i n = st.counts i n)
          ∧ (tryHop P st pos s).2 = pos)
    ∧ (∀ (w : World) (s : Species), w.params.width = 1 → w.params.height = 1 →
        w.params.capacity = some 1 → OnlyHops w.params →
        w.state.counts 0 s.name = 1 →
        ∀ k, (World.stepN k w).state.counts 0 s.name = 1) := by
  constructor
  · intro P st pos s hrej
    unfold tryHop
    split
    · rw [if_neg ?_]
      · exact ⟨fun i n => rfl, rfl⟩
      · intro hcon
        rw [hrej] at hcon
        exact Bool.false_ne_true hcon.2
    · exact ⟨fun i n => rfl, rfl⟩
  · intro w s hw hh _hK honly hcount k
    have hns : nsites w.params = 1 := by
      unfold nsites
      rw [hw, hh]
    have e1 : ∀ c : Counts, speciesTotalF w.params c s.name = c 0 s.name := by
      intro c
      unfold speciesTotalF
      rw [hns, Finset.sum_range_one]
    calc (World.stepN k w).state.counts 0 s.name
        = speciesTotalF w.params (World.stepN k w).state.counts s.name := (e1 _).symm
      _ = speciesTotalF w.params w.state.counts s.name := stepN_total w honly k s.name
      _ = w.state.counts 0 s.name := e1 _
      _ = 1 := hcount

/-- Witness for C7, applying the theorem's 1 by 1 single-occupancy corollary at a
concrete hop-only world. -/
theorem hop_rejection_noop_witness :
    (World.stepN 3 worldHop).state.counts 0 spA.name = 1 :=
  hop_rejection_noop.2 worldHop spA rfl rfl rfl
    (fun p hp => absurd hp (List.not_mem_nil p)) (by decide) 3

/-- Claim C8: the snapshot operation can be called at any point, including before
the first step, without mutating the world: its full effect is the snapshot value
(a pure copy computed from the current state) together with the world unchanged. -/
theorem asarrays_pure_frame (w : World) (k : Nat) :
    World.asarraysOp (World.stepN k w)
      = (World.asarrays (World.stepN k w), World.stepN k w) := rfl

/-- Claim C9: the collaborator-facing surface exposes manual seeding as
create_occupant taking a species and a site; a successful call increments the
occupant count of exactly that species at exactly that site by one and changes
nothing else. -/
theorem create_occupant_increments (w : World) (s : Species) (i : Nat)
    (hsite : i < nsites w.params) (hreg : s.name ∈ w.params.names)
    (hcan : canAddF w.params w.state.counts i = true) :
    ∃ w', w.create_occupant s i = Except.ok w'
      ∧ w'.params = w.params
      ∧ w'.state.counts i s.name = w.state.counts i s.name + 1
      ∧ ∀ j m, ¬ (j = i ∧ m = s.name) → w'.state.counts j m = w.state.counts j m := by
  refine ⟨⟨w.params, ⟨addCount w.state.counts i s.name 1, w.state.rng⟩⟩, ?_, rfl, ?_, ?_⟩
  · unfold World.create_occupant
    rw [if_pos hsite, if_pos hreg, if_pos hcan]
  · show addCount w.state.counts i s.name 1 i s.name = w.state.counts i s.name + 1
    rw [addCount_apply, if_pos ⟨rfl, rfl⟩]
  · intro j m hjm
    show addCount w.state.counts i s.name 1 j m = w.state.counts j m
    rw [addCount_apply, if_neg hjm]

/-- Witness for C9 at a concrete empty world. -/
theorem create_occupant_increments_witness :
    ∃ w', worldEmpty.create_occupant spA 0 = Except.ok w'
      ∧ w'.params = worldEmpty.params
      ∧ w'.state.counts 0 spA.name = worldEmpty.state.counts 0 spA.name + 1
      ∧ ∀ j m, ¬ (j = 0 ∧ m = spA.name) →
          w'.state.counts j m = worldEmpty.state.counts j m :=
  create_occupant_increments worldEmpty spA 0 (by decide) (by decide) rfl

/-- Claim C10: the snapshot mapping is keyed by the species' name string - for
every registered species, looking the snapshot up at the species' name yields
that species' 2D count array. -/
theorem asarrays_keyed_by_name (w : World) (s : Species)
    (hs : s ∈ w.params.speciesList) :
    ∃ g, w.asarrays s.name = some g
      ∧ ∀ y x, g y x = w.state.counts (y * w.params.width + x) s.name := by
  refine ⟨fun y x => w.state.counts (y * w.params.width + x) s.name, ?_, fun y x => rfl⟩
  have hmem : s.name ∈ w.params.names := List.mem_map_of_mem Species.name hs
  unfold World.asarrays
  rw [if_pos hmem]

/-- Witness for C10 at a concrete world. -/
theorem asarrays_keyed_by_name_witness :
    ∃ g, worldEmpty.asarrays spA.name = some g
      ∧ ∀ y x, g y x = worldEmpty.state.counts (y * worldEmpty.params.width + x) spA.name :=
  asarrays_keyed_by_name worldEmpty spA (by decide)
